import Mathlib

/-
Verification of the consistent hash ring of src/src/lib.rs.

The embedding below translates the Rust source into Lean:

  * `Node`, `HashRing`, `HashRing.new`, `HashRing.len`, `HashRing.is_empty`,
    `HashRing.add`, `HashRing.remove`, `HashRing.get` and `get_key` mirror the
    structures and methods of the same names in src/src/lib.rs.
  * `searchLoop` / `binary_search` translate the standard library function
    `slice::binary_search_by` that `remove` and `get` call: the loop keeps a
    half-open window [left, right), probes `mid = left + (right - left) / 2`,
    and answers `Ok(mid)` on an exact hash match or `Err(left)` with the
    insertion point.  A fuel argument (always instantiated with the list
    length, an upper bound on the iteration count) makes the loop
    structurally recursive.
  * Rust's `Vec::sort` used by `add` is a stable sort of the entries by hash.
    A stable sort's output is uniquely determined by the comparison and the
    input order, so the model uses `List.insertionSort`, which is stable and
    computable by the kernel.
  * The MD5 digest comes from the external `crypto` crate, which is not part
    of this repository; it is modelled from the spec (section 4.1) and
    checked below against the standard MD5 test vectors.  Rust strings are
    UTF-8, so the identity byte string of a value is the UTF-8 encoding of
    its `to_string()` rendering.
-/

set_option maxRecDepth 40000

namespace Hashring

/-- Modelled from the spec: UTF-8 encoding of one character, the byte
rendering Rust uses for the `str` values fed to the hash.  (The UTF-8
encoder lives in Rust's standard library, not in src/.) -/
def encodeChar (c : Char) : List Nat :=
  let n := c.toNat
  if n < 0x80 then [n]
  else if n < 0x800 then [0xC0 ||| (n >>> 6), 0x80 ||| (n &&& 0x3F)]
  else if n < 0x10000 then
    [0xE0 ||| (n >>> 12), 0x80 ||| ((n >>> 6) &&& 0x3F), 0x80 ||| (n &&& 0x3F)]
  else
    [0xF0 ||| (n >>> 18), 0x80 ||| ((n >>> 12) &&& 0x3F),
     0x80 ||| ((n >>> 6) &&& 0x3F), 0x80 ||| (n &&& 0x3F)]

/-- The identity byte string of a rendered value. -/
def utf8Bytes (s : String) : List Nat :=
  (s.data.map encodeChar).flatten

/-- Modelled from the spec: the MD5 round constant table. -/
def md5K : List Nat :=
  [0xd76aa478, 0xe8c7b756, 0x242070db, 0xc1bdceee,
   0xf57c0faf, 0x4787c62a, 0xa8304613, 0xfd469501,
   0x698098d8, 0x8b44f7af, 0xffff5bb1, 0x895cd7be,
   0x6b901122, 0xfd987193, 0xa679438e, 0x49b40821,
   0xf61e2562, 0xc040b340, 0x265e5a51, 0xe9b6c7aa,
   0xd62f105d, 0x02441453, 0xd8a1e681, 0xe7d3fbc8,
   0x21e1cde6, 0xc33707d6, 0xf4d50d87, 0x455a14ed,
   0xa9e3e905, 0xfcefa3f8, 0x676f02d9, 0x8d2a4c8a,
   0xfffa3942, 0x8771f681, 0x6d9d6122, 0xfde5380c,
   0xa4beea44, 0x4bdecfa9, 0xf6bb4b60, 0xbebfbc70,
   0x289b7ec6, 0xeaa127fa, 0xd4ef3085, 0x04881d05,
   0xd9d4d039, 0xe6db99e5, 0x1fa27cf8, 0xc4ac5665,
   0xf4292244, 0x432aff97, 0xab9423a7, 0xfc93a039,
   0x655b59c3, 0x8f0ccc92, 0xffeff47d, 0x85845dd1,
   0x6fa87e4f, 0xfe2ce6e0, 0xa3014314, 0x4e0811a1,
   0xf7537e82, 0xbd3af235, 0x2ad7d2bb, 0xeb86d391]

/-- Modelled from the spec: the MD5 per-round rotation amounts. -/
def md5S : List Nat :=
  [7, 12, 17, 22, 7, 12, 17, 22, 7, 12, 17, 22, 7, 12, 17, 22,
   5, 9, 14, 20, 5, 9, 14, 20, 5, 9, 14, 20, 5, 9, 14, 20,
   4, 11, 16, 23, 4, 11, 16, 23, 4, 11, 16, 23, 4, 11, 16, 23,
   6, 10, 15, 21, 6, 10, 15, 21, 6, 10, 15, 21, 6, 10, 15, 21]

/-- 32-bit left rotation. -/
def rotl32 (x n : Nat) : Nat :=
  ((x <<< n) % 4294967296) ||| (x >>> (32 - n))

/-- Modelled from the spec: the four MD5 bit-mixing functions F, G, H, I,
selected by the round index. -/
def md5Mix (i b c d : Nat) : Nat :=
  if i < 16 then (b &&& c) ||| ((b ^^^ 0xffffffff) &&& d)
  else if i < 32 then (d &&& b) ||| ((d ^^^ 0xffffffff) &&& c)
  else if i < 48 then b ^^^ c ^^^ d
  else c ^^^ (b ||| (d ^^^ 0xffffffff))

/-- Modelled from the spec: the MD5 message-word schedule. -/
def md5Idx (i : Nat) : Nat :=
  if i < 16 then i
  else if i < 32 then (5 * i + 1) % 16
  else if i < 48 then (3 * i + 5) % 16
  else (7 * i) % 16

/-- One MD5 round: the state (a, b, c, d) after round i. -/
def md5Step (m : List Nat) (st : Nat × Nat × Nat × Nat) (i : Nat) :
    Nat × Nat × Nat × Nat :=
  match st with
  | (a, b, c, d) =>
    let f := (md5Mix i b c d + a + md5K.getD i 0 + m.getD (md5Idx i) 0) % 4294967296
    (d, (b + rotl32 f (md5S.getD i 0)) % 4294967296, b, c)

/-- Group bytes into little-endian 32-bit words. -/
def bytesToWordsLE : List Nat → List Nat
  | b0 :: b1 :: b2 :: b3 :: rest =>
      (b0 ||| (b1 <<< 8) ||| (b2 <<< 16) ||| (b3 <<< 24)) :: bytesToWordsLE rest
  | _ => []

/-- Compress one 64-byte block into the running MD5 state. -/
def md5Block (st : Nat × Nat × Nat × Nat) (block : List Nat) :
    Nat × Nat × Nat × Nat :=
  let m := bytesToWordsLE block
  match st with
  | (h0, h1, h2, h3) =>
    match (List.range 64).foldl (md5Step m) (h0, h1, h2, h3) with
    | (a, b, c, d) =>
      ((h0 + a) % 4294967296, (h1 + b) % 4294967296,
       (h2 + c) % 4294967296, (h3 + d) % 4294967296)

/-- Compress the given number of 64-byte blocks. -/
def md5Blocks : Nat → (Nat × Nat × Nat × Nat) → List Nat → Nat × Nat × Nat × Nat
  | 0, st, _ => st
  | n + 1, st, bytes => md5Blocks n (md5Block st (bytes.take 64)) (bytes.drop 64)

/-- Serialize a 32-bit word as four little-endian bytes. -/
def wordToBytesLE (w : Nat) : List Nat :=
  [w % 256, (w >>> 8) % 256, (w >>> 16) % 256, (w >>> 24) % 256]

/-- Modelled from the spec: MD5 padding, one 0x80 byte, zeros to 56 mod 64,
then the bit length as a little-endian 64-bit number. -/
def md5Pad (bytes : List Nat) : List Nat :=
  let z := (120 - ((bytes.length + 1) % 64)) % 64
  let bitLen := (bytes.length * 8) % 18446744073709551616
  bytes ++ [0x80] ++ List.replicate z 0 ++
    [bitLen % 256, (bitLen >>> 8) % 256, (bitLen >>> 16) % 256,
     (bitLen >>> 24) % 256, (bitLen >>> 32) % 256, (bitLen >>> 40) % 256,
     (bitLen >>> 48) % 256, (bitLen >>> 56) % 256]

/-- The MD5 initial state. -/
def md5Init : Nat × Nat × Nat × Nat :=
  (0x67452301, 0xefcdab89, 0x98badcfe, 0x10325476)

/-- Modelled from the spec: the 16-byte MD5 digest of a byte string.  The
MD5 primitive is the `crypto` crate dependency of the source, which is not
part of this repository. -/
def md5 (bytes : List Nat) : List Nat :=
  let padded := md5Pad bytes
  match md5Blocks (padded.length / 64) md5Init padded with
  | (a, b, c, d) =>
    wordToBytesLE a ++ wordToBytesLE b ++ wordToBytesLE c ++ wordToBytesLE d

/-- `HashRing::get_key` of src/src/lib.rs: hash the UTF-8 bytes of the
string with MD5 and assemble the digest bytes 7..0 by shift-or, exactly as
the source does. -/
def get_key (s : String) : Nat :=
  let buf := md5 (utf8Bytes s)
  buf.getD 7 0 <<< 56 ||| buf.getD 6 0 <<< 48 ||| buf.getD 5 0 <<< 40 |||
    buf.getD 4 0 <<< 32 ||| buf.getD 3 0 <<< 24 ||| buf.getD 2 0 <<< 16 |||
    buf.getD 1 0 <<< 8 ||| buf.getD 0 0

/-- The `Node` struct of src/src/lib.rs: a stored hash key plus the owned
node value.  Its `Ord` instance compares by `key` only. -/
structure Node (T : Type) where
  key : Nat
  node : T
deriving Repr, DecidableEq

/-- The ordering that `Vec::sort` uses on `Node`s: by hash key only
(the `Ord` impl of src/src/lib.rs). -/
abbrev nodeLe {T : Type} (a b : Node T) : Prop :=
  a.key ≤ b.key

instance instNodeLeTotal {T : Type} : IsTotal (Node T) nodeLe :=
  ⟨fun a b => Nat.le_total a.key b.key⟩

instance instNodeLeTrans {T : Type} : IsTrans (Node T) nodeLe :=
  ⟨fun _ _ _ => Nat.le_trans⟩

/-- The `HashRing` struct of src/src/lib.rs.  The `hash` and `buf` fields
are scratch state of the pure hash computation and do not appear; `U` is
the phantom key-type parameter. -/
structure HashRing (T U : Type) where
  ring : List (Node T)
deriving Repr, DecidableEq

/-- The loop of `slice::binary_search_by`, specialised to the hash-key
comparator of src/src/lib.rs.  `fuel` bounds the number of iterations; it
is always called with `fuel = keys.length ≥ right - left`, and the window
shrinks strictly each iteration, so the fuel is never exhausted. -/
def searchLoop (keys : List Nat) (k : Nat) : Nat → Nat → Nat → Except Nat Nat
  | 0, left, _ => Except.error left
  | fuel + 1, left, right =>
    if left < right then
      let mid := left + (right - left) / 2
      if keys.getD mid 0 < k then searchLoop keys k fuel (mid + 1) right
      else if k < keys.getD mid 0 then searchLoop keys k fuel left mid
      else Except.ok mid
    else Except.error left

/-- `self.ring.binary_search_by(|node| node.key.cmp(&key))` over the list
of stored hash keys. -/
def binary_search (keys : List Nat) (k : Nat) : Except Nat Nat :=
  searchLoop keys k keys.length 0 keys.length

namespace HashRing

variable {T U : Type}

/-- `HashRing::new` (via `Default`): the empty ring. -/
def new : HashRing T U :=
  ⟨[]⟩

/-- `HashRing::len`. -/
def len (r : HashRing T U) : Nat :=
  r.ring.length

/-- `HashRing::is_empty`. -/
def is_empty (r : HashRing T U) : Bool :=
  r.ring.length == 0

/-- `HashRing::add`: hash the node's rendered identity, push the entry and
re-sort (stably) by hash key. -/
def add [ToString T] (r : HashRing T U) (node : T) : HashRing T U :=
  let s := toString node
  let key := get_key s
  ⟨(r.ring ++ [Node.mk key node]).insertionSort nodeLe⟩

/-- `HashRing::remove`: hash the identity, binary-search the stored keys,
and on a hit detach the entry at the found index and return its node. -/
def remove [ToString T] (r : HashRing T U) (node : T) : Option T × HashRing T U :=
  let s := toString node
  let key := get_key s
  match binary_search (r.ring.map Node.key) key with
  | Except.error _ => (none, r)
  | Except.ok n =>
    match r.ring[n]? with
    | some e => (some e.node, ⟨r.ring.eraseIdx n⟩)
    | none => (none, r)

/-- `HashRing::get`: on a non-empty ring, binary-search the key's hash and
return the node at the found index, wrapping to index 0 when the insertion
point is one past the end. -/
def get [ToString U] (r : HashRing T U) (key : U) : Option T :=
  if r.ring.isEmpty then none
  else
    let s := toString key
    let k := get_key s
    let n :=
      match binary_search (r.ring.map Node.key) k with
      | Except.error n => n
      | Except.ok n => n
    if n = r.ring.length then (r.ring[0]?).map Node.node
    else (r.ring[n]?).map Node.node

end HashRing

/-- The stored hash keys of a ring, in order. -/
def keysOf {T U : Type} (r : HashRing T U) : List Nat :=
  r.ring.map Node.key

/-- The sortedness data invariant: entries in non-decreasing hash order. -/
def sortedRing {T U : Type} (r : HashRing T U) : Prop :=
  List.Sorted nodeLe r.ring

instance {T U : Type} (r : HashRing T U) : Decidable (sortedRing r) :=
  List.decidableSorted r.ring

/-- One public operation of the facade: an `add`, a `remove`, or a `get`. -/
inductive Op (T U : Type) where
  | add (x : T)
  | remove (x : T)
  | get (k : U)

/-- The ring state after one operation.  `get` reads the ring but never
changes it (src/src/lib.rs only mutates the scratch hash state). -/
def step {T U : Type} [ToString T] (r : HashRing T U) : Op T U → HashRing T U
  | Op.add x => r.add x
  | Op.remove x => (r.remove x).2
  | Op.get _ => r

/-- The ring reached by a sequence of operations from the empty ring. -/
def run {T U : Type} [ToString T] (ops : List (Op T U)) : HashRing T U :=
  ops.foldl step HashRing.new

/-- The number of `add` operations in a sequence. -/
def numAdds {T U : Type} : List (Op T U) → Nat
  | [] => 0
  | Op.add _ :: rest => numAdds rest + 1
  | _ :: rest => numAdds rest

/-- The number of `remove` operations that return a node, along a run
starting from ring `r`. -/
def succRemoves {T U : Type} [ToString T] : HashRing T U → List (Op T U) → Nat
  | _, [] => 0
  | r, Op.add x :: rest => succRemoves (r.add x) rest
  | r, Op.remove x :: rest =>
      (if (r.remove x).1.isSome then 1 else 0) + succRemoves (r.remove x).2 rest
  | r, Op.get _ :: rest => succRemoves r rest

/-- A fresh ring populated by `add`ing the given nodes in order. -/
def runAdds {T U : Type} [ToString T] (l : List T) : HashRing T U :=
  l.foldl HashRing.add HashRing.new

/-- Modelled from the spec: the little-endian integer denoted by a byte
list (byte 0 least significant). -/
def leBytes : List Nat → Nat
  | [] => 0
  | b :: bs => b + 256 * leBytes bs

/-- Modelled from the spec, section 4.1: interpret the first 8 bytes of the
MD5 digest as a little-endian 64-bit unsigned integer, discarding the
remaining 8 bytes. -/
def spec_key (s : String) : Nat :=
  leBytes ((md5 (utf8Bytes s)).take 8)

end Hashring

namespace Hashring

/-- A `Pairwise`-sorted key list is monotone under positional access. -/
lemma getD_mono_of_pairwise {keys : List Nat} (hs : keys.Pairwise (· ≤ ·))
    {i j : Nat} (hij : i ≤ j) (hj : j < keys.length) :
    keys.getD i 0 ≤ keys.getD j 0 := by
  rcases Nat.lt_or_ge i j with hlt | hge
  · have h := List.pairwise_iff_getElem.mp hs i j (Nat.lt_trans hlt hj) hj hlt
    rw [List.getD_eq_getElem keys 0 (Nat.lt_trans hlt hj), List.getD_eq_getElem keys 0 hj]
    exact h
  · have : i = j := Nat.le_antisymm hij hge
    subst this
    exact Nat.le_refl _

/-- Window bounds of the binary-search loop, with no sortedness assumption:
an `Err` answer lies in `[left, right]`, an `Ok` answer in `[left, right)`. -/
lemma searchLoop_bounds (keys : List Nat) (k : Nat) :
    ∀ fuel left right, left ≤ right →
    ((∀ n, searchLoop keys k fuel left right = Except.error n → left ≤ n ∧ n ≤ right) ∧
     (∀ n, searchLoop keys k fuel left right = Except.ok n → left ≤ n ∧ n < right)) := by
  intro fuel
  induction fuel with
  | zero =>
    intro left right hlr
    constructor
    · intro n hn
      simp only [searchLoop] at hn
      cases hn
      exact ⟨Nat.le_refl _, hlr⟩
    · intro n hn
      simp only [searchLoop] at hn
      exact Except.noConfusion hn
  | succ fuel ih =>
    intro left right hlr
    by_cases hwin : left < right
    · have hmid1 : left ≤ left + (right - left) / 2 := Nat.le_add_right _ _
      have hmid2 : left + (right - left) / 2 < right := by omega
      constructor
      · intro n hn
        simp only [searchLoop, if_pos hwin] at hn
        by_cases h1 : keys.getD (left + (right - left) / 2) 0 < k
        · rw [if_pos h1] at hn
          have := (ih (left + (right - left) / 2 + 1) right (by omega)).1 n hn
          omega
        · rw [if_neg h1] at hn
          by_cases h2 : k < keys.getD (left + (right - left) / 2) 0
          · rw [if_pos h2] at hn
            have := (ih left (left + (right - left) / 2) (by omega)).1 n hn
            omega
          · rw [if_neg h2] at hn
            cases hn
      · intro n hn
        simp only [searchLoop, if_pos hwin] at hn
        by_cases h1 : keys.getD (left + (right - left) / 2) 0 < k
        · rw [if_pos h1] at hn
          have := (ih (left + (right - left) / 2 + 1) right (by omega)).2 n hn
          omega
        · rw [if_neg h1] at hn
          by_cases h2 : k < keys.getD (left + (right - left) / 2) 0
          · rw [if_pos h2] at hn
            have := (ih left (left + (right - left) / 2) (by omega)).2 n hn
            omega
          · rw [if_neg h2] at hn
            cases hn
            omega
    · constructor
      · intro n hn
        simp only [searchLoop, if_neg hwin] at hn
        cases hn
        exact ⟨Nat.le_refl _, hlr⟩
      · intro n hn
        simp only [searchLoop, if_neg hwin] at hn
        exact Except.noConfusion hn

/-- Correctness of the binary-search loop on a sorted key list: `Ok n`
means the key at `n` equals the target, `Err n` means every key before `n`
is strictly below the target and every key from `n` on is strictly above. -/
lemma searchLoop_spec (keys : List Nat) (k : Nat)
    (hs : keys.Pairwise (· ≤ ·)) :
    ∀ fuel left right, right - left ≤ fuel → left ≤ right → right ≤ keys.length →
    (∀ i, i < left → keys.getD i 0 < k) →
    (∀ i, right ≤ i → i < keys.length → k < keys.getD i 0) →
    ((∀ n, searchLoop keys k fuel left right = Except.ok n →
        n < keys.length ∧ keys.getD n 0 = k) ∧
     (∀ n, searchLoop keys k fuel left right = Except.error n →
        n ≤ keys.length ∧ (∀ i, i < n → keys.getD i 0 < k) ∧
        (∀ i, n ≤ i → i < keys.length → k < keys.getD i 0))) := by
  intro fuel
  induction fuel with
  | zero =>
    intro left right hfuel hlr hrlen hlo hhi
    have : left = right := by omega
    subst this
    constructor
    · intro n hn
      simp only [searchLoop] at hn
      exact Except.noConfusion hn
    · intro n hn
      simp only [searchLoop] at hn
      cases hn
      exact ⟨Nat.le_trans hlr hrlen, hlo, fun i hi hilen => hhi i hi hilen⟩
  | succ fuel ih =>
    intro left right hfuel hlr hrlen hlo hhi
    by_cases hwin : left < right
    · have hmidlt : left + (right - left) / 2 < right := by omega
      have hmidlen : left + (right - left) / 2 < keys.length := by omega
      by_cases h1 : keys.getD (left + (right - left) / 2) 0 < k
      · have hlo' : ∀ i, i < left + (right - left) / 2 + 1 → keys.getD i 0 < k := by
          intro i hi
          exact Nat.lt_of_le_of_lt
            (getD_mono_of_pairwise hs (by omega) hmidlen) h1
        have hrec := ih (left + (right - left) / 2 + 1) right (by omega) (by omega)
          hrlen hlo' hhi
        constructor
        · intro n hn
          simp only [searchLoop, if_pos hwin, if_pos h1] at hn
          exact hrec.1 n hn
        · intro n hn
          simp only [searchLoop, if_pos hwin, if_pos h1] at hn
          exact hrec.2 n hn
      · by_cases h2 : k < keys.getD (left + (right - left) / 2) 0
        · have hhi' : ∀ i, left + (right - left) / 2 ≤ i → i < keys.length →
              k < keys.getD i 0 := by
            intro i hi hilen
            exact Nat.lt_of_lt_of_le h2 (getD_mono_of_pairwise hs hi hilen)
          have hrec := ih left (left + (right - left) / 2) (by omega) (by omega)
            (by omega) hlo hhi'
          constructor
          · intro n hn
            simp only [searchLoop, if_pos hwin, if_neg h1, if_pos h2] at hn
            exact hrec.1 n hn
          · intro n hn
            simp only [searchLoop, if_pos hwin, if_neg h1, if_pos h2] at hn
            exact hrec.2 n hn
        · constructor
          · intro n hn
            simp only [searchLoop, if_pos hwin, if_neg h1, if_neg h2] at hn
            cases hn
            exact ⟨hmidlen, by omega⟩
          · intro n hn
            simp only [searchLoop, if_pos hwin, if_neg h1, if_neg h2] at hn
            exact Except.noConfusion hn
    · have : left = right := by omega
      subst this
      constructor
      · intro n hn
        simp only [searchLoop, if_neg hwin] at hn
        exact Except.noConfusion hn
      · intro n hn
        simp only [searchLoop, if_neg hwin] at hn
        cases hn
        exact ⟨Nat.le_trans hlr hrlen, hlo, fun i hi hilen => hhi i hi hilen⟩

/-- `binary_search` bounds: any answer index is at most the list length,
and an `Ok` index is strictly inside. -/
lemma binary_search_bounds (keys : List Nat) (k : Nat) :
    (∀ n, binary_search keys k = Except.error n → n ≤ keys.length) ∧
    (∀ n, binary_search keys k = Except.ok n → n < keys.length) := by
  have h := searchLoop_bounds keys k keys.length 0 keys.length (Nat.zero_le _)
  exact ⟨fun n hn => (h.1 n hn).2, fun n hn => (h.2 n hn).2⟩

/-- On a sorted key list, an `Ok` answer points at an occurrence of the
target key. -/
lemma binary_search_ok {keys : List Nat} {k n : Nat}
    (hs : keys.Pairwise (· ≤ ·)) (h : binary_search keys k = Except.ok n) :
    n < keys.length ∧ keys.getD n 0 = k := by
  exact (searchLoop_spec keys k hs keys.length 0 keys.length (by omega)
    (Nat.zero_le _) (Nat.le_refl _) (by omega) (by omega)).1 n h

/-- On a sorted key list, an `Err n` answer is the insertion point: keys
before `n` are strictly below the target, keys from `n` on strictly above. -/
lemma binary_search_error {keys : List Nat} {k n : Nat}
    (hs : keys.Pairwise (· ≤ ·)) (h : binary_search keys k = Except.error n) :
    n ≤ keys.length ∧ (∀ i, i < n → keys.getD i 0 < k) ∧
    (∀ i, n ≤ i → i < keys.length → k < keys.getD i 0) := by
  exact (searchLoop_spec keys k hs keys.length 0 keys.length (by omega)
    (Nat.zero_le _) (Nat.le_refl _) (by omega) (by omega)).2 n h

/-- On a sorted key list, the search misses exactly when the target key is
absent. -/
lemma binary_search_miss_iff {keys : List Nat} {k : Nat}
    (hs : keys.Pairwise (· ≤ ·)) :
    (∃ n, binary_search keys k = Except.error n) ↔ k ∉ keys := by
  constructor
  · rintro ⟨n, hn⟩ hmem
    obtain ⟨j, hj, hjk⟩ := List.getElem_of_mem hmem
    have herr := binary_search_error hs hn
    rcases Nat.lt_or_ge j n with hlt | hge
    · have := herr.2.1 j hlt
      rw [List.getD_eq_getElem keys 0 hj] at this
      omega
    · have := herr.2.2 j hge hj
      rw [List.getD_eq_getElem keys 0 hj] at this
      omega
  · intro hmem
    cases hres : binary_search keys k with
    | error n => exact ⟨n, rfl⟩
    | ok n =>
      obtain ⟨hlen, hkey⟩ := binary_search_ok hs hres
      exact absurd (hkey ▸ (List.getD_eq_getElem keys 0 hlen ▸ List.getElem_mem hlen :
        keys.getD n 0 ∈ keys)) (fun h => hmem h)

end Hashring

namespace Hashring

variable {T U : Type}

/-- A list is a permutation of any of its elements pulled to the front of
the list with that position erased. -/
lemma perm_getElem_cons_eraseIdx {α : Type} (l : List α) {n : Nat}
    (hn : n < l.length) : l.Perm (l[n] :: l.eraseIdx n) := by
  conv_lhs => rw [← List.take_append_drop n l, List.drop_eq_getElem_cons hn]
  rw [List.eraseIdx_eq_take_drop_succ]
  exact List.perm_middle

/-- The hash keys of a ring are pairwise sorted exactly when the entries
are. -/
lemma keys_pairwise_iff (r : HashRing T U) :
    (keysOf r).Pairwise (· ≤ ·) ↔ sortedRing r := by
  unfold keysOf sortedRing List.Sorted
  exact List.pairwise_map

/-- `add` produces (a stable reordering of) the old entries plus the new
one: the multiset of entries grows by exactly the hashed node. -/
lemma add_perm [ToString T] (r : HashRing T U) (x : T) :
    (r.add x).ring.Perm (r.ring ++ [Node.mk (get_key (toString x)) x]) := by
  simp only [HashRing.add]
  exact List.perm_insertionSort nodeLe _

/-- `add` always leaves the ring sorted. -/
lemma sortedRing_add [ToString T] (r : HashRing T U) (x : T) :
    sortedRing (r.add x) := by
  simp only [HashRing.add, sortedRing]
  exact List.sorted_insertionSort nodeLe _

/-- `add` grows the entry count by exactly one. -/
lemma len_add [ToString T] (r : HashRing T U) (x : T) :
    (r.add x).len = r.len + 1 := by
  have h := (add_perm r x).length_eq
  simp only [List.length_append, List.length_cons, List.length_nil] at h
  exact h

/-- Case analysis of `remove` on a sorted ring: either the hash is absent
and nothing changes, or the entry at the found index (whose key is the
hash) is detached and returned. -/
lemma remove_spec [ToString T] (r : HashRing T U) (x : T) (hs : sortedRing r) :
    (get_key (toString x) ∉ keysOf r ∧ r.remove x = (none, r)) ∨
    (∃ n, ∃ hn : n < r.ring.length,
       (r.ring[n]).key = get_key (toString x) ∧
       r.remove x = (some (r.ring[n]).node, ⟨r.ring.eraseIdx n⟩)) := by
  have hkeys : (r.ring.map Node.key).Pairwise (· ≤ ·) :=
    (keys_pairwise_iff r).mpr hs
  simp only [HashRing.remove]
  cases hres : binary_search (r.ring.map Node.key) (get_key (toString x)) with
  | error m =>
    left
    exact ⟨(binary_search_miss_iff hkeys).mp ⟨m, hres⟩, rfl⟩
  | ok n =>
    right
    obtain ⟨hlen, hkey⟩ := binary_search_ok hkeys hres
    rw [List.getD_eq_getElem _ 0 hlen, List.getElem_map] at hkey
    rw [List.length_map] at hlen
    refine ⟨n, hlen, hkey, ?_⟩
    dsimp only
    rw [List.getElem?_eq_getElem hlen]

/-- If `remove` misses, the ring is returned untouched (for any ring,
sorted or not). -/
lemma remove_none_unchanged [ToString T] (r : HashRing T U) (x : T)
    (h : (r.remove x).1 = none) : (r.remove x).2 = r := by
  simp only [HashRing.remove] at h ⊢
  cases hres : binary_search (r.ring.map Node.key) (get_key (toString x)) with
  | error m => simp only
  | ok n =>
    rw [hres] at h
    simp only at h ⊢
    cases hg : r.ring[n]? with
    | none => simp only
    | some e =>
      rw [hg] at h
      simp only at h
      exact Option.noConfusion h

/-- A successful `remove` shrinks the entry count by exactly one (for any
ring, sorted or not). -/
lemma len_remove_some [ToString T] (r : HashRing T U) (x : T)
    (h : (r.remove x).1.isSome) : (r.remove x).2.len + 1 = r.len := by
  simp only [HashRing.remove] at h ⊢
  cases hres : binary_search (r.ring.map Node.key) (get_key (toString x)) with
  | error m => rw [hres] at h; simp at h
  | ok n =>
    rw [hres] at h
    simp only at h ⊢
    cases hg : r.ring[n]? with
    | none => rw [hg] at h; simp at h
    | some e =>
      have hn : n < r.ring.length := by
        by_contra hcon
        rw [List.getElem?_eq_none (by omega)] at hg
        exact Option.noConfusion hg
      simp only [HashRing.len, List.length_eraseIdx, if_pos hn]
      omega

/-- `remove` leaves the ring sorted. -/
lemma sortedRing_remove [ToString T] (r : HashRing T U) (x : T)
    (hs : sortedRing r) : sortedRing (r.remove x).2 := by
  simp only [HashRing.remove]
  cases hres : binary_search (r.ring.map Node.key) (get_key (toString x)) with
  | error m => exact hs
  | ok n =>
    dsimp only
    cases hg : r.ring[n]? with
    | none => exact hs
    | some e =>
      exact List.Pairwise.sublist (List.eraseIdx_sublist r.ring n) hs

/-- On a sorted ring, `remove` answers a node exactly when the hash of the
argument's identity occurs among the stored keys. -/
lemma remove_isSome_iff [ToString T] (r : HashRing T U) (x : T)
    (hs : sortedRing r) :
    (r.remove x).1.isSome ↔ get_key (toString x) ∈ keysOf r := by
  rcases remove_spec r x hs with ⟨hout, heq⟩ | ⟨n, hn, hkey, heq⟩
  · rw [heq]
    simp only [Option.isSome_none, Bool.false_eq_true, false_iff]
    exact hout
  · rw [heq]
    simp only [Option.isSome_some, true_iff]
    exact hkey ▸ List.mem_map.mpr ⟨r.ring[n], List.getElem_mem hn, rfl⟩

end Hashring

namespace Hashring

variable {T U : Type}

/-- Positional access into the stored-key list is the key of the entry. -/
lemma keysOf_getD (r : HashRing T U) {j : Nat} (hj : j < r.ring.length) :
    (r.ring.map Node.key).getD j 0 = (r.ring[j]).key := by
  rw [List.getD_eq_getElem _ 0 (by simpa using hj), List.getElem_map]

/-- Membership in the stored keys, by position. -/
lemma mem_keysOf_iff (r : HashRing T U) {k' : Nat} :
    k' ∈ keysOf r ↔ ∃ j, ∃ hj : j < r.ring.length, (r.ring[j]).key = k' := by
  unfold keysOf
  constructor
  · intro h
    obtain ⟨e, he, hek⟩ := List.mem_map.mp h
    obtain ⟨j, hj, hje⟩ := List.getElem_of_mem he
    exact ⟨j, hj, by rw [hje, hek]⟩
  · rintro ⟨j, hj, hjk⟩
    exact List.mem_map.mpr ⟨r.ring[j], List.getElem_mem hj, hjk⟩

/-- On any non-empty ring, `get` returns the node of some stored entry. -/
lemma get_some_of_ne_nil [ToString U] (r : HashRing T U) (k : U)
    (hne : r.ring ≠ []) :
    ∃ n, ∃ hn : n < r.ring.length, r.get k = some (r.ring[n]).node := by
  have hlen0 : 0 < r.ring.length := List.length_pos.mpr hne
  simp only [HashRing.get]
  rw [if_neg (by simp [List.isEmpty_iff, hne])]
  have hbounds := binary_search_bounds (r.ring.map Node.key) (get_key (toString k))
  cases hres : binary_search (r.ring.map Node.key) (get_key (toString k)) with
  | error m =>
    have hm : m ≤ r.ring.length := by
      have := hbounds.1 m hres
      simpa using this
    simp only
    by_cases hml : m = r.ring.length
    · rw [if_pos hml, List.getElem?_eq_getElem hlen0]
      exact ⟨0, hlen0, rfl⟩
    · have hmlt : m < r.ring.length := by omega
      rw [if_neg hml, List.getElem?_eq_getElem hmlt]
      exact ⟨m, hmlt, rfl⟩
  | ok m =>
    have hmlt : m < r.ring.length := by
      have := hbounds.2 m hres
      simpa using this
    simp only
    rw [if_neg (by omega), List.getElem?_eq_getElem hmlt]
    exact ⟨m, hmlt, rfl⟩

/-- On a sorted non-empty ring, `get` returns the node of an entry whose
hash is the least stored hash at or above the key's hash, or the least
stored hash overall when every stored hash is below the key's hash. -/
lemma get_successor [ToString U] (r : HashRing T U) (k : U)
    (hs : sortedRing r) (hne : r.ring ≠ []) :
    ∃ n, ∃ hn : n < r.ring.length, r.get k = some (r.ring[n]).node ∧
      ((∃ k' ∈ keysOf r, get_key (toString k) ≤ k') →
         (get_key (toString k) ≤ (r.ring[n]).key ∧
          ∀ k' ∈ keysOf r, get_key (toString k) ≤ k' → (r.ring[n]).key ≤ k')) ∧
      ((∀ k' ∈ keysOf r, k' < get_key (toString k)) →
         ∀ k' ∈ keysOf r, (r.ring[n]).key ≤ k') := by
  have hkeys : (r.ring.map Node.key).Pairwise (· ≤ ·) :=
    (keys_pairwise_iff r).mpr hs
  have hlen0 : 0 < r.ring.length := List.length_pos.mpr hne
  have hmaplen : (r.ring.map Node.key).length = r.ring.length := List.length_map _ _
  simp only [HashRing.get]
  rw [if_neg (by simp [List.isEmpty_iff, hne])]
  cases hres : binary_search (r.ring.map Node.key) (get_key (toString k)) with
  | error m =>
    obtain ⟨hm, hlo, hhi⟩ := binary_search_error hkeys hres
    rw [hmaplen] at hm
    simp only
    by_cases hml : m = r.ring.length
    · rw [if_pos hml, List.getElem?_eq_getElem hlen0]
      refine ⟨0, hlen0, rfl, ?_, ?_⟩
      · rintro ⟨k', hk', hkk'⟩
        obtain ⟨j, hj, hjk⟩ := (mem_keysOf_iff r).mp hk'
        have := hlo j (by omega)
        rw [keysOf_getD r hj, hjk] at this
        omega
      · intro _ k' hk'
        obtain ⟨j, hj, hjk⟩ := (mem_keysOf_iff r).mp hk'
        have := getD_mono_of_pairwise hkeys (Nat.zero_le j) (by omega)
        rw [keysOf_getD r hj, keysOf_getD r hlen0, hjk] at this
        exact this
    · have hmlt : m < r.ring.length := by omega
      rw [if_neg hml, List.getElem?_eq_getElem hmlt]
      have hatm : get_key (toString k) < (r.ring[m]).key := by
        have := hhi m (Nat.le_refl m) (by omega)
        rwa [keysOf_getD r hmlt] at this
      refine ⟨m, hmlt, rfl, ?_, ?_⟩
      · intro _
        refine ⟨Nat.le_of_lt hatm, ?_⟩
        intro k' hk' hkk'
        obtain ⟨j, hj, hjk⟩ := (mem_keysOf_iff r).mp hk'
        rcases Nat.lt_or_ge j m with hjm | hjm
        · have := hlo j hjm
          rw [keysOf_getD r hj, hjk] at this
          omega
        · have := getD_mono_of_pairwise hkeys hjm (by omega)
          rw [keysOf_getD r hj, keysOf_getD r hmlt, hjk] at this
          exact this
      · intro hall
        have := hall ((r.ring[m]).key)
          ((mem_keysOf_iff r).mpr ⟨m, hmlt, rfl⟩)
        omega
  | ok m =>
    obtain ⟨hm, hkey⟩ := binary_search_ok hkeys hres
    rw [hmaplen] at hm
    rw [keysOf_getD r hm] at hkey
    simp only
    rw [if_neg (by omega), List.getElem?_eq_getElem hm]
    refine ⟨m, hm, rfl, ?_, ?_⟩
    · intro _
      exact ⟨by omega, fun k' _ hkk' => by omega⟩
    · intro hall
      have := hall ((r.ring[m]).key) ((mem_keysOf_iff r).mpr ⟨m, hm, rfl⟩)
      omega

end Hashring

namespace Hashring


/-- Bit-or is plain addition when the left argument is a multiple of a
power of two and the right argument lies below that power. -/
lemma lor_eq_add_of_lt : ∀ (n c a : Nat), a < 2 ^ n → (c * 2 ^ n) ||| a = c * 2 ^ n + a := by
  intro n
  induction n with
  | zero =>
    intro c a ha
    have h0 : a = 0 := by omega
    subst h0
    simp
  | succ n ih =>
    intro c a ha
    have hpow : 2 ^ (n + 1) = 2 * 2 ^ n := by
      rw [Nat.pow_succ, Nat.mul_comm]
    have hcc : c * 2 ^ (n + 1) = 2 * (c * 2 ^ n) := by
      rw [hpow]; ring
    have hhalf : a / 2 < 2 ^ n := by omega
    have hbitc : c * 2 ^ (n + 1) = Nat.bit false (c * 2 ^ n) := by
      simp only [Nat.bit, cond]
      omega
    have hpar : a % 2 = 0 ∨ a % 2 = 1 := by omega
    rcases hpar with hpar | hpar
    · have hbita : a = Nat.bit false (a / 2) := by
        simp only [Nat.bit, cond]
        omega
      rw [hbitc, hbita, Nat.lor_bit]
      simp only [Bool.or_false, Nat.bit, cond]
      rw [ih c (a / 2) hhalf]
      omega
    · have hbita : a = Nat.bit true (a / 2) := by
        simp only [Nat.bit, cond]
        omega
      rw [hbitc, hbita, Nat.lor_bit]
      simp only [Bool.false_or, Nat.bit, cond]
      rw [ih c (a / 2) hhalf]
      omega

/-- The shift-or assembly of eight bytes (digest byte 7 highest, byte 0
lowest), as written in `get_key`, equals the little-endian value of the
byte sequence. -/
lemma byte_assemble (b0 b1 b2 b3 b4 b5 b6 b7 : Nat)
    (h0 : b0 < 256) (h1 : b1 < 256) (h2 : b2 < 256) (h3 : b3 < 256)
    (h4 : b4 < 256) (h5 : b5 < 256) (h6 : b6 < 256) (h7 : b7 < 256) :
    b7 <<< 56 ||| b6 <<< 48 ||| b5 <<< 40 ||| b4 <<< 32 ||| b3 <<< 24 |||
      b2 <<< 16 ||| b1 <<< 8 ||| b0 =
    b0 + 256 * (b1 + 256 * (b2 + 256 * (b3 + 256 * (b4 + 256 * (b5 +
      256 * (b6 + 256 * b7)))))) := by
  simp only [Nat.shiftLeft_eq]
  rw [lor_eq_add_of_lt 56 b7 (b6 * 2 ^ 48) (by norm_num; omega)]
  rw [show b7 * 2 ^ 56 + b6 * 2 ^ 48 = (b7 * 2 ^ 8 + b6) * 2 ^ 48 from by ring]
  rw [lor_eq_add_of_lt 48 _ (b5 * 2 ^ 40) (by norm_num; omega)]
  rw [show (b7 * 2 ^ 8 + b6) * 2 ^ 48 + b5 * 2 ^ 40 =
        (b7 * 2 ^ 16 + b6 * 2 ^ 8 + b5) * 2 ^ 40 from by ring]
  rw [lor_eq_add_of_lt 40 _ (b4 * 2 ^ 32) (by norm_num; omega)]
  rw [show (b7 * 2 ^ 16 + b6 * 2 ^ 8 + b5) * 2 ^ 40 + b4 * 2 ^ 32 =
        (b7 * 2 ^ 24 + b6 * 2 ^ 16 + b5 * 2 ^ 8 + b4) * 2 ^ 32 from by ring]
  rw [lor_eq_add_of_lt 32 _ (b3 * 2 ^ 24) (by norm_num; omega)]
  rw [show (b7 * 2 ^ 24 + b6 * 2 ^ 16 + b5 * 2 ^ 8 + b4) * 2 ^ 32 + b3 * 2 ^ 24 =
        (b7 * 2 ^ 32 + b6 * 2 ^ 24 + b5 * 2 ^ 16 + b4 * 2 ^ 8 + b3) * 2 ^ 24 from by ring]
  rw [lor_eq_add_of_lt 24 _ (b2 * 2 ^ 16) (by norm_num; omega)]
  rw [show (b7 * 2 ^ 32 + b6 * 2 ^ 24 + b5 * 2 ^ 16 + b4 * 2 ^ 8 + b3) * 2 ^ 24 + b2 * 2 ^ 16 =
        (b7 * 2 ^ 40 + b6 * 2 ^ 32 + b5 * 2 ^ 24 + b4 * 2 ^ 16 + b3 * 2 ^ 8 + b2) * 2 ^ 16 from by
          ring]
  rw [lor_eq_add_of_lt 16 _ (b1 * 2 ^ 8) (by norm_num; omega)]
  rw [show (b7 * 2 ^ 40 + b6 * 2 ^ 32 + b5 * 2 ^ 24 + b4 * 2 ^ 16 + b3 * 2 ^ 8 + b2) * 2 ^ 16 +
        b1 * 2 ^ 8 =
        (b7 * 2 ^ 48 + b6 * 2 ^ 40 + b5 * 2 ^ 32 + b4 * 2 ^ 24 + b3 * 2 ^ 16 + b2 * 2 ^ 8 + b1) *
          2 ^ 8 from by ring]
  rw [lor_eq_add_of_lt 8 _ b0 (by omega)]
  ring

/-- The MD5 digest is sixteen explicit bytes, four little-endian bytes per
state word. -/
lemma md5_explicit (bytes : List Nat) :
    ∃ a b c d : Nat, md5 bytes =
      [a % 256, (a >>> 8) % 256, (a >>> 16) % 256, (a >>> 24) % 256,
       b % 256, (b >>> 8) % 256, (b >>> 16) % 256, (b >>> 24) % 256,
       c % 256, (c >>> 8) % 256, (c >>> 16) % 256, (c >>> 24) % 256,
       d % 256, (d >>> 8) % 256, (d >>> 16) % 256, (d >>> 24) % 256] := by
  rcases hm : md5Blocks ((md5Pad bytes).length / 64) md5Init (md5Pad bytes) with ⟨a, b, c, d⟩
  refine ⟨a, b, c, d, ?_⟩
  simp only [md5]
  rw [hm]
  simp [wordToBytesLE]

/-- The model of the external MD5 dependency matches the RFC 1321 test
vector for the empty string. -/
theorem md5_vector_empty :
    md5 (utf8Bytes "") =
      [0xd4, 0x1d, 0x8c, 0xd9, 0x8f, 0x00, 0xb2, 0x04,
       0xe9, 0x80, 0x09, 0x98, 0xec, 0xf8, 0x42, 0x7e] := by
  decide

/-- The model of the external MD5 dependency matches the RFC 1321 test
vector for "abc". -/
theorem md5_vector_abc :
    md5 (utf8Bytes "abc") =
      [0x90, 0x01, 0x50, 0x98, 0x3c, 0xd2, 0x4f, 0xb0,
       0xd6, 0x96, 0x3f, 0x7d, 0x28, 0xe1, 0x7f, 0x72] := by
  decide

end Hashring

namespace Hashring

variable {T U : Type}

/-- Claim C2: for every input string, the key-hashing function `get_key`
used by `add`, `remove` and `get` equals the little-endian 64-bit unsigned
integer formed from the first 8 bytes of the 16-byte MD5 digest of the
string's identity bytes (digest byte 0 least significant, digest byte 7
most significant; bytes 8..15 discarded). -/
theorem C2_get_key_is_le_of_first_8_md5_bytes (s : String) :
    get_key s = spec_key s := by
  obtain ⟨a, b, c, d, hm⟩ := md5_explicit (utf8Bytes s)
  simp only [get_key, spec_key]
  rw [hm]
  simp only [List.getD_cons_succ, List.getD_cons_zero, List.take_succ_cons,
    List.take_zero]
  simp only [leBytes]
  rw [byte_assemble (a % 256) ((a >>> 8) % 256) ((a >>> 16) % 256)
    ((a >>> 24) % 256) (b % 256) ((b >>> 8) % 256) ((b >>> 16) % 256)
    ((b >>> 24) % 256)
    (Nat.mod_lt _ (by norm_num)) (Nat.mod_lt _ (by norm_num))
    (Nat.mod_lt _ (by norm_num)) (Nat.mod_lt _ (by norm_num))
    (Nat.mod_lt _ (by norm_num)) (Nat.mod_lt _ (by norm_num))
    (Nat.mod_lt _ (by norm_num)) (Nat.mod_lt _ (by norm_num))]
  ring

/-- `step` preserves the sortedness invariant. -/
lemma sortedRing_step [ToString T] (r : HashRing T U) (op : Op T U)
    (hs : sortedRing r) : sortedRing (step r op) := by
  cases op with
  | add x => exact sortedRing_add r x
  | remove x => exact sortedRing_remove r x hs
  | get k => exact hs

/-- Any fold of operations from a sorted ring stays sorted. -/
lemma sortedRing_foldl [ToString T] (ops : List (Op T U)) :
    ∀ r : HashRing T U, sortedRing r → sortedRing (ops.foldl step r) := by
  induction ops with
  | nil => intro r hr; exact hr
  | cons op rest ih =>
    intro r hr
    exact ih (step r op) (sortedRing_step r op hr)

/-- The empty ring is sorted. -/
lemma sortedRing_new : sortedRing (HashRing.new : HashRing T U) :=
  List.Pairwise.nil

/-- Size accounting along any fold: the final length plus the successful
removals equals the starting length plus the adds. -/
lemma len_foldl [ToString T] (ops : List (Op T U)) :
    ∀ r : HashRing T U,
      (ops.foldl step r).len + succRemoves r ops = r.len + numAdds ops := by
  induction ops with
  | nil => intro r; simp [succRemoves, numAdds]
  | cons op rest ih =>
    intro r
    cases op with
    | add x =>
      have h := ih (r.add x)
      simp only [List.foldl_cons, step, succRemoves, numAdds]
      rw [h, len_add]
      omega
    | remove x =>
      simp only [List.foldl_cons, step, succRemoves, numAdds]
      by_cases hsome : (r.remove x).1.isSome
      · have h := ih (r.remove x).2
        have hlen := len_remove_some r x hsome
        rw [if_pos hsome]
        omega
      · have hnone : (r.remove x).1 = none := by
          cases hv : (r.remove x).1 with
          | none => rfl
          | some t => rw [hv] at hsome; simp at hsome
        have hun := remove_none_unchanged r x hnone
        rw [if_neg hsome, hun]
        have h := ih r
        omega
    | get k =>
      have h := ih r
      simp only [List.foldl_cons, step, succRemoves, numAdds]
      omega

end Hashring

namespace Hashring

variable {T U : Type}

/-- Claim C1: for every sorted non-empty ring and every key, `get` returns
the node of an entry whose hash is the smallest stored hash greater than or
equal to the 64-bit hash of the key's identity; if the key's hash exceeds
every stored hash, `get` wraps around and returns the node of an entry with
the smallest stored hash overall.  (Sortedness is the data invariant that
every reachable ring satisfies, see the C4 theorem.) -/
theorem C1_get_returns_successor_with_wraparound [ToString T] [ToString U]
    (r : HashRing T U) (k : U) (hs : sortedRing r) (hne : r.ring ≠ []) :
    ∃ n, ∃ hn : n < r.ring.length, r.get k = some (r.ring[n]).node ∧
      ((∃ k' ∈ keysOf r, get_key (toString k) ≤ k') →
         (get_key (toString k) ≤ (r.ring[n]).key ∧
          ∀ k' ∈ keysOf r, get_key (toString k) ≤ k' → (r.ring[n]).key ≤ k')) ∧
      ((∀ k' ∈ keysOf r, k' < get_key (toString k)) →
         ∀ k' ∈ keysOf r, (r.ring[n]).key ≤ k') :=
  get_successor r k hs hne

/-- Witness for C1 at a concrete sorted two-entry ring and a concrete key. -/
theorem C1_witness :
    sortedRing (⟨[⟨5, "x"⟩, ⟨9, "y"⟩]⟩ : HashRing String String) ∧
    (⟨[⟨5, "x"⟩, ⟨9, "y"⟩]⟩ : HashRing String String).ring ≠ [] ∧
    (∃ n, ∃ hn : n < (⟨[⟨5, "x"⟩, ⟨9, "y"⟩]⟩ : HashRing String String).ring.length,
      (⟨[⟨5, "x"⟩, ⟨9, "y"⟩]⟩ : HashRing String String).get "foo" =
        some (((⟨[⟨5, "x"⟩, ⟨9, "y"⟩]⟩ : HashRing String String).ring[n]).node) ∧
      ((∃ k' ∈ keysOf (⟨[⟨5, "x"⟩, ⟨9, "y"⟩]⟩ : HashRing String String),
          get_key (toString "foo") ≤ k') →
         (get_key (toString "foo") ≤
            ((⟨[⟨5, "x"⟩, ⟨9, "y"⟩]⟩ : HashRing String String).ring[n]).key ∧
          ∀ k' ∈ keysOf (⟨[⟨5, "x"⟩, ⟨9, "y"⟩]⟩ : HashRing String String),
            get_key (toString "foo") ≤ k' →
              ((⟨[⟨5, "x"⟩, ⟨9, "y"⟩]⟩ : HashRing String String).ring[n]).key ≤ k')) ∧
      ((∀ k' ∈ keysOf (⟨[⟨5, "x"⟩, ⟨9, "y"⟩]⟩ : HashRing String String),
          k' < get_key (toString "foo")) →
         ∀ k' ∈ keysOf (⟨[⟨5, "x"⟩, ⟨9, "y"⟩]⟩ : HashRing String String),
           ((⟨[⟨5, "x"⟩, ⟨9, "y"⟩]⟩ : HashRing String String).ring[n]).key ≤ k')) :=
  ⟨by decide, by decide,
    C1_get_returns_successor_with_wraparound _ "foo" (by decide) (by decide)⟩

/-- Claim C3: on a sorted ring, `remove` returns a node exactly when the
ring holds an entry whose hash equals the hash of the argument's identity
(matching is by hash only, the node values are never compared); on success
exactly one entry, carrying that hash, leaves the ring. -/
theorem C3_remove_is_keyed_by_hash_and_removes_one [ToString T]
    (r : HashRing T U) (x : T) (hs : sortedRing r) :
    ((r.remove x).1.isSome ↔ get_key (toString x) ∈ keysOf r) ∧
    (∀ t, (r.remove x).1 = some t →
       ∃ e ∈ r.ring, e.node = t ∧ e.key = get_key (toString x) ∧
         r.ring.Perm (e :: (r.remove x).2.ring)) := by
  refine ⟨remove_isSome_iff r x hs, ?_⟩
  intro t ht
  rcases remove_spec r x hs with ⟨hout, heq⟩ | ⟨n, hn, hkey, heq⟩
  · rw [heq] at ht
    exact Option.noConfusion ht
  · rw [heq] at ht
    obtain rfl : (r.ring[n]).node = t := by
      injection ht
    refine ⟨r.ring[n], List.getElem_mem hn, rfl, hkey, ?_⟩
    rw [heq]
    exact perm_getElem_cons_eraseIdx r.ring hn

/-- Witness for C3 at a concrete one-entry ring. -/
theorem C3_witness :
    sortedRing (⟨[⟨5, "x"⟩]⟩ : HashRing String String) ∧
    (((⟨[⟨5, "x"⟩]⟩ : HashRing String String).remove "x").1.isSome ↔
      get_key (toString "x") ∈ keysOf (⟨[⟨5, "x"⟩]⟩ : HashRing String String)) ∧
    (∀ t, ((⟨[⟨5, "x"⟩]⟩ : HashRing String String).remove "x").1 = some t →
       ∃ e ∈ (⟨[⟨5, "x"⟩]⟩ : HashRing String String).ring,
         e.node = t ∧ e.key = get_key (toString "x") ∧
         (⟨[⟨5, "x"⟩]⟩ : HashRing String String).ring.Perm
           (e :: ((⟨[⟨5, "x"⟩]⟩ : HashRing String String).remove "x").2.ring)) :=
  ⟨by decide,
    (C3_remove_is_keyed_by_hash_and_removes_one _ "x" (by decide)).1,
    (C3_remove_is_keyed_by_hash_and_removes_one _ "x" (by decide)).2⟩

/-- Claim C4: after every sequence of `add` / `remove` / `get` operations
starting from the empty ring, the stored hashes are in non-decreasing
order. -/
theorem C4_sortedness_is_invariant [ToString T] (ops : List (Op T U)) :
    (keysOf (run ops)).Pairwise (· ≤ ·) :=
  (keys_pairwise_iff (run ops)).mpr
    (sortedRing_foldl ops HashRing.new sortedRing_new)

/-- Claim C5: `is_empty` holds exactly when `len` is zero, which holds
exactly when `get` answers nothing for every key; on a non-empty ring `get`
never answers nothing. -/
theorem C5_is_empty_iff_len_zero_iff_get_none [ToString T] [ToString U]
    [Inhabited U] (r : HashRing T U) :
    (r.is_empty = true ↔ r.len = 0) ∧
    (r.len = 0 ↔ ∀ k : U, r.get k = none) ∧
    (∀ k : U, r.len ≠ 0 → r.get k ≠ none) := by
  have hsome : ∀ k : U, r.len ≠ 0 → r.get k ≠ none := by
    intro k hlen
    have hne : r.ring ≠ [] := by
      intro hnil
      exact hlen (by simp [HashRing.len, hnil])
    obtain ⟨n, hn, hget⟩ := get_some_of_ne_nil r k hne
    rw [hget]
    exact Option.noConfusion
  refine ⟨?_, ⟨?_, ?_⟩, hsome⟩
  · simp [HashRing.is_empty, HashRing.len]
  · intro hlen k
    have hnil : r.ring = [] := List.length_eq_zero.mp hlen
    simp [HashRing.get, hnil]
  · intro hall
    by_contra hlen
    exact hsome default hlen (hall default)

/-- Witness for C5's conditional part at a concrete non-empty ring. -/
theorem C5_witness :
    (⟨[⟨5, "x"⟩]⟩ : HashRing String String).len ≠ 0 ∧
    (⟨[⟨5, "x"⟩]⟩ : HashRing String String).get "foo" ≠ none :=
  ⟨by decide,
    (C5_is_empty_iff_len_zero_iff_get_none ⟨[⟨5, "x"⟩]⟩).2.2 "foo" (by decide)⟩

/-- Claim C6: over any operation sequence from the empty ring, `len` is the
number of `add`s minus the number of removes that returned a node; each
`add` grows `len` by exactly one, each successful `remove` shrinks it by
exactly one, and a missed `remove` or a `get` leaves the ring unchanged. -/
theorem C6_len_counts_adds_minus_successful_removes [ToString T] :
    (∀ ops : List (Op T U),
      (run ops).len + succRemoves HashRing.new ops = numAdds ops) ∧
    (∀ (r : HashRing T U) (x : T), (r.add x).len = r.len + 1) ∧
    (∀ (r : HashRing T U) (x : T),
      (r.remove x).1.isSome → (r.remove x).2.len + 1 = r.len) ∧
    (∀ (r : HashRing T U) (x : T),
      (r.remove x).1 = none → (r.remove x).2 = r) ∧
    (∀ (r : HashRing T U) (k : U), step r (Op.get k) = r) := by
  refine ⟨?_, len_add, len_remove_some, remove_none_unchanged, fun r k => rfl⟩
  intro ops
  have h := len_foldl ops (HashRing.new : HashRing T U)
  simpa [run, HashRing.len, HashRing.new] using h

/-- Witness for C6's conditional parts at concrete rings. -/
theorem C6_witness :
    (((HashRing.new.add "x" : HashRing String String).remove "x").1.isSome ∧
      ((HashRing.new.add "x" : HashRing String String).remove "x").2.len + 1 =
        (HashRing.new.add "x" : HashRing String String).len) ∧
    (((HashRing.new : HashRing String String).remove "x").1 = none ∧
      ((HashRing.new : HashRing String String).remove "x").2 = HashRing.new) :=
  ⟨⟨by decide,
     (C6_len_counts_adds_minus_successful_removes (U := String)).2.2.1
       (HashRing.new.add "x") "x" (by decide)⟩,
   ⟨by decide,
     (C6_len_counts_adds_minus_successful_removes (U := String)).2.2.2.1
       HashRing.new "x" (by decide)⟩⟩

/-- Claim C10: a `remove` that answers nothing leaves the ring completely
unchanged: the entry sequence, `len`, `is_empty` and every later `get` are
as before. -/
theorem C10_failed_remove_changes_nothing [ToString T] [ToString U]
    (r : HashRing T U) (x : T) (h : (r.remove x).1 = none) :
    (r.remove x).2 = r ∧ (r.remove x).2.len = r.len ∧
    (r.remove x).2.is_empty = r.is_empty ∧
    (∀ k : U, (r.remove x).2.get k = r.get k) := by
  have he := remove_none_unchanged r x h
  exact ⟨he, by rw [he], by rw [he], fun k => by rw [he]⟩

/-- Witness for C10 at the empty ring. -/
theorem C10_witness :
    ((HashRing.new : HashRing String String).remove "a").1 = none ∧
    (((HashRing.new : HashRing String String).remove "a").2 = HashRing.new ∧
     ((HashRing.new : HashRing String String).remove "a").2.len = (HashRing.new : HashRing String String).len ∧
     ((HashRing.new : HashRing String String).remove "a").2.is_empty = (HashRing.new : HashRing String String).is_empty ∧
     (∀ k : String, ((HashRing.new : HashRing String String).remove "a").2.get k = (HashRing.new : HashRing String String).get k)) :=
  ⟨by decide, C10_failed_remove_changes_nothing HashRing.new "a" (by decide)⟩

end Hashring

namespace Hashring

variable {T U : Type}

/-- `add` bumps the multiplicity of the added hash among the stored keys by
one and keeps every other multiplicity. -/
lemma count_keysOf_add [ToString T] (r : HashRing T U) (x : T) (m : Nat) :
    (keysOf (r.add x)).count m =
      (keysOf r).count m + (if m = get_key (toString x) then 1 else 0) := by
  have hp : (keysOf (r.add x)).Perm
      (keysOf r ++ [get_key (toString x)]) := by
    have := (add_perm r x).map Node.key
    simpa [keysOf, List.map_append] using this
  rw [hp.count_eq, List.count_append, List.count_cons]
  simp only [List.count_nil, beq_iff_eq, Nat.zero_add]
  by_cases hm : m = get_key (toString x)
  · simp [hm]
  · simp [hm]
    exact fun hc => absurd hc.symm hm

/-- A successful `remove` lowers the multiplicity of the removed hash among
the stored keys by one and keeps every other multiplicity. -/
lemma count_keysOf_remove_some [ToString T] (r : HashRing T U) (x : T)
    (hs : sortedRing r) (hsome : (r.remove x).1.isSome) (m : Nat) :
    (keysOf r).count m =
      (keysOf (r.remove x).2).count m +
        (if m = get_key (toString x) then 1 else 0) := by
  rcases remove_spec r x hs with ⟨_, heq⟩ | ⟨n, hn, hkey, heq⟩
  · rw [heq] at hsome
    simp at hsome
  · have hp : r.ring.Perm (r.ring[n] :: (r.remove x).2.ring) := by
      rw [heq]
      exact perm_getElem_cons_eraseIdx r.ring hn
    have hkp : (keysOf r).Perm ((r.ring[n]).key :: keysOf (r.remove x).2) := by
      simpa [keysOf] using hp.map Node.key
    rw [hkp.count_eq, List.count_cons, hkey]
    simp only [beq_iff_eq]
    by_cases hm : m = get_key (toString x)
    · simp [hm]
    · simp [hm]
      exact fun hc => absurd hc.symm hm

/-- Claim C8, amended: for every sorted ring `r` and node `x`, two `add x`
calls grow `len` by exactly 2, after which two successive `remove x` calls
both return a node; a third `remove x` returns nothing provided the
original ring held no entry whose hash equals the hash of `x`'s identity
(on the empty ring this is the spec's scenario: len 2, two hits, one
miss). -/
theorem C8_amended_duplicate_tolerance [ToString T] (r : HashRing T U)
    (x : T) :
    ((r.add x).add x).len = r.len + 2 ∧
    (((r.add x).add x).remove x).1.isSome ∧
    ((((r.add x).add x).remove x).2.remove x).1.isSome ∧
    (get_key (toString x) ∉ keysOf r →
      (((((r.add x).add x).remove x).2.remove x).2.remove x).1 = none) := by
  have hkey : get_key (toString x) = get_key (toString x) := rfl
  have hs2 : sortedRing ((r.add x).add x) := sortedRing_add _ x
  have hc2 : (keysOf ((r.add x).add x)).count (get_key (toString x)) =
      (keysOf r).count (get_key (toString x)) + 2 := by
    rw [count_keysOf_add, count_keysOf_add]
    simp
  have hmem2 : get_key (toString x) ∈ keysOf ((r.add x).add x) := by
    rw [← List.count_pos_iff]
    omega
  have hsome1 : (((r.add x).add x).remove x).1.isSome :=
    (remove_isSome_iff _ x hs2).mpr hmem2
  have hs3 : sortedRing (((r.add x).add x).remove x).2 :=
    sortedRing_remove _ x hs2
  have hc3 : (keysOf ((r.add x).add x)).count (get_key (toString x)) =
      (keysOf (((r.add x).add x).remove x).2).count (get_key (toString x)) + 1 := by
    have := count_keysOf_remove_some ((r.add x).add x) x hs2 hsome1
      (get_key (toString x))
    simpa using this
  have hmem3 : get_key (toString x) ∈ keysOf (((r.add x).add x).remove x).2 := by
    rw [← List.count_pos_iff]
    omega
  have hsome2 : ((((r.add x).add x).remove x).2.remove x).1.isSome :=
    (remove_isSome_iff _ x hs3).mpr hmem3
  have hs4 : sortedRing ((((r.add x).add x).remove x).2.remove x).2 :=
    sortedRing_remove _ x hs3
  have hc4 : (keysOf (((r.add x).add x).remove x).2).count (get_key (toString x)) =
      (keysOf ((((r.add x).add x).remove x).2.remove x).2).count
        (get_key (toString x)) + 1 := by
    have := count_keysOf_remove_some (((r.add x).add x).remove x).2 x hs3 hsome2
      (get_key (toString x))
    simpa using this
  refine ⟨?_, hsome1, hsome2, ?_⟩
  · rw [len_add, len_add]
  · intro hout
    have hcr : (keysOf r).count (get_key (toString x)) = 0 := by
      by_contra hpos
      exact hout (List.count_pos_iff.mp (by omega))
    have hmem4 : get_key (toString x) ∉
        keysOf ((((r.add x).add x).remove x).2.remove x).2 := by
      rw [← List.count_pos_iff]
      omega
    have := remove_isSome_iff ((((r.add x).add x).remove x).2.remove x).2 x hs4
    cases hv : (((((r.add x).add x).remove x).2.remove x).2.remove x).1 with
    | none => rfl
    | some t =>
      exact absurd (this.mp (by rw [hv]; rfl)) hmem4

/-- Witness for the amended C8 at the empty ring. -/
theorem C8_witness :
    get_key (toString "a") ∉ keysOf (HashRing.new : HashRing String String) ∧
    ((HashRing.new.add "a" : HashRing String String).add "a").len =
      (HashRing.new : HashRing String String).len + 2 ∧
    (((HashRing.new.add "a" : HashRing String String).add "a").remove "a").1.isSome ∧
    ((((HashRing.new.add "a" : HashRing String String).add "a").remove "a").2.remove "a").1.isSome ∧
    (((((HashRing.new.add "a" : HashRing String String).add "a").remove "a").2.remove "a").2.remove "a").1 = none :=
  ⟨by decide,
   (C8_amended_duplicate_tolerance HashRing.new "a").1,
   (C8_amended_duplicate_tolerance HashRing.new "a").2.1,
   (C8_amended_duplicate_tolerance HashRing.new "a").2.2.1,
   (C8_amended_duplicate_tolerance HashRing.new "a").2.2.2 (by decide)⟩

/-- Claim C8 counterexample: start from the (reachable, sorted) ring that
already holds one entry whose hash is the hash of "a"; after the claim's
two `add "a"` calls and two successful removes, the third `remove "a"`
still returns a node, not the claimed absent answer. -/
theorem C8_counterexample :
    ((((((HashRing.new.add "a" : HashRing String String).add "a").add
      "a").remove "a").2.remove "a").2.remove "a").1 ≠ none := by
  decide

end Hashring

namespace Hashring

variable {T U : Type}

/-- First string of a public MD5 collision pair (Marc Stevens' text
collision): a valid ASCII identity. -/
def collA : String :=
  "TEXTCOLLBYfGiJUETHQ4hAcKSMd5zYpgqf1YRDhkmxHkhPWptrkoyz28wnI9V0aHeAuaKnak"

/-- Second string of the collision pair: differs from `collA` in one
character yet has the same MD5 digest, hence the same 64-bit ring hash. -/
def collB : String :=
  "TEXTCOLLBYfGiJUETHQ4hEcKSMd5zYpgqf1YRDhkmxHkhPWptrkoyz28wnI9V0aHeAuaKnak"

/-- The two collision identities are distinct strings. -/
lemma collA_ne_collB : collA ≠ collB := by
  decide

/-- The ring hash of the first collision identity. -/
lemma get_key_collA : get_key collA = 18201461096438148602 := by
  decide

/-- The ring hash of the second collision identity: the same 64-bit value,
although the identities differ. -/
lemma get_key_collB : get_key collB = 18201461096438148602 := by
  decide

end Hashring

namespace Hashring

variable {T U : Type}

/-- Claim C7 counterexample: the same multiset of identities (the
colliding pair) inserted in the two possible orders produces rings that
answer different identities for the same lookup key. -/
theorem C7_counterexample :
    [collA, collB].Perm [collB, collA] ∧
    (runAdds [collA, collB] : HashRing String String).get collA ≠
      (runAdds [collB, collA] : HashRing String String).get collA := by
  constructor
  · exact List.Perm.swap collB collA []
  · decide

/-- Folding `add` over a node list appends the hashed entries, up to
reordering. -/
lemma foldl_add_ring_perm [ToString T] (l : List T) :
    ∀ r : HashRing T U, (l.foldl HashRing.add r).ring.Perm
      (r.ring ++ l.map (fun x => Node.mk (get_key (toString x)) x)) := by
  induction l with
  | nil => intro r; simp
  | cons x rest ih =>
    intro r
    refine List.Perm.trans (ih (r.add x)) ?_
    refine List.Perm.trans ((add_perm r x).append_right _) ?_
    rw [List.append_assoc, List.singleton_append, List.map_cons]

/-- Folding `add` preserves sortedness. -/
lemma foldl_add_sorted [ToString T] (l : List T) :
    ∀ r : HashRing T U, sortedRing r → sortedRing (l.foldl HashRing.add r) := by
  induction l with
  | nil => intro r hr; exact hr
  | cons x rest ih =>
    intro r _
    exact ih (r.add x) (sortedRing_add r x)

end Hashring

namespace Hashring

variable {T U : Type}

/-- Two key-sorted (hash, identity) pair lists that are permutations of one
another, in which equal hashes always carry equal identities, are equal as
lists. -/
lemma pairs_eq_of_perm_of_sorted (p q : List (Nat × String))
    (hperm : p.Perm q)
    (hp : p.Pairwise (fun a b => a.1 ≤ b.1))
    (hq : q.Pairwise (fun a b => a.1 ≤ b.1))
    (htie : ∀ a ∈ p, ∀ b ∈ p, a.1 = b.1 → a.2 = b.2) : p = q := by
  haveI hanti : IsAntisymm (Nat × String)
      (fun a b => a.1 < b.1 ∨ (a.1 = b.1 ∧ a.2 = b.2)) := by
    refine ⟨?_⟩
    rintro ⟨a1, a2⟩ ⟨b1, b2⟩ hab hba
    rcases hab with h1 | ⟨h1, h2⟩
    · rcases hba with h3 | ⟨h3, h4⟩
      · exfalso; omega
      · exfalso; omega
    · rcases hba with h3 | ⟨h3, h4⟩
      · exfalso; omega
      · rw [Prod.mk.injEq]
        exact ⟨h1, h2⟩
  have htieq : ∀ a ∈ q, ∀ b ∈ q, a.1 = b.1 → a.2 = b.2 := by
    intro a ha b hb
    exact htie a (hperm.mem_iff.mpr ha) b (hperm.mem_iff.mpr hb)
  have hp' : p.Pairwise (fun a b => a.1 < b.1 ∨ (a.1 = b.1 ∧ a.2 = b.2)) := by
    refine List.Pairwise.imp_of_mem ?_ hp
    intro a b ha hb hle
    rcases Nat.lt_or_ge a.1 b.1 with hlt | hge
    · exact Or.inl hlt
    · have heq : a.1 = b.1 := Nat.le_antisymm hle hge
      exact Or.inr ⟨heq, htie a ha b hb heq⟩
  have hq' : q.Pairwise (fun a b => a.1 < b.1 ∨ (a.1 = b.1 ∧ a.2 = b.2)) := by
    refine List.Pairwise.imp_of_mem ?_ hq
    intro a b ha hb hle
    rcases Nat.lt_or_ge a.1 b.1 with hlt | hge
    · exact Or.inl hlt
    · have heq : a.1 = b.1 := Nat.le_antisymm hle hge
      exact Or.inr ⟨heq, htieq a ha b hb heq⟩
  exact List.eq_of_perm_of_sorted hperm hp' hq'

/-- `get` (up to identity of the answer) only depends on the sequence of
(hash, identity) pairs of the ring entries. -/
lemma get_of_pairs_eq [ToString T] [ToString U] (r1 r2 : HashRing T U)
    (hpair : r1.ring.map (fun e => (e.key, toString e.node)) =
             r2.ring.map (fun e => (e.key, toString e.node))) (k : U) :
    (r1.get k).map toString = (r2.get k).map toString := by
  have hlen : r1.ring.length = r2.ring.length := by
    have h := congrArg List.length hpair
    simpa using h
  have hkeys : r1.ring.map Node.key = r2.ring.map Node.key := by
    have h := congrArg (List.map Prod.fst) hpair
    simpa [List.map_map, Function.comp] using h
  have hnode : ∀ m : Nat,
      (r1.ring[m]?.map Node.node).map toString =
      (r2.ring[m]?.map Node.node).map toString := by
    intro m
    have h1 := congrArg (fun l => l[m]?) hpair
    simp only [List.getElem?_map] at h1
    have h2 := congrArg (Option.map Prod.snd) h1
    simpa [Option.map_map, Function.comp] using h2
  by_cases hnil : r1.ring = []
  · have hnil2 : r2.ring = [] := by
      rw [hnil] at hpair
      simpa [List.map_eq_nil_iff] using hpair.symm
    simp [HashRing.get, hnil, hnil2]
  · have hnil2 : r2.ring ≠ [] := by
      intro h2
      apply hnil
      rw [h2] at hpair
      simpa [List.map_eq_nil_iff] using hpair
    have hc1 : ¬(r1.ring.isEmpty = true) := by
      simp [List.isEmpty_iff, hnil]
    have hc2 : ¬(r2.ring.isEmpty = true) := by
      simp [List.isEmpty_iff, hnil2]
    simp only [HashRing.get]
    rw [if_neg hc1, if_neg hc2, ← hkeys, ← hlen]
    by_cases hn :
        (match binary_search (r1.ring.map Node.key) (get_key (toString k)) with
          | Except.error n => n
          | Except.ok n => n) = r1.ring.length
    · rw [if_pos hn, if_pos hn]
      exact hnode 0
    · rw [if_neg hn, if_neg hn]
      exact hnode _

end Hashring

namespace Hashring

variable {T U : Type}

/-- Claim C7, amended: two fresh rings populated with the same multiset of
nodes, in any order, return identity-equal nodes for every key, provided
identities with equal 64-bit hashes coincide (no hash collision among the
inserted identities). -/
theorem C7_amended_order_insensitive [ToString T] [ToString U]
    (l1 l2 : List T) (hp : l1.Perm l2)
    (hinj : ∀ x ∈ l1, ∀ y ∈ l1,
      get_key (toString x) = get_key (toString y) → toString x = toString y)
    (k : U) :
    ((runAdds l1 : HashRing T U).get k).map toString =
    ((runAdds l2 : HashRing T U).get k).map toString := by
  apply get_of_pairs_eq
  have hperm1 : (runAdds l1 : HashRing T U).ring.Perm
      (l1.map (fun x => Node.mk (get_key (toString x)) x)) := by
    have h := foldl_add_ring_perm l1 (HashRing.new : HashRing T U)
    simpa [runAdds, HashRing.new] using h
  have hperm2 : (runAdds l2 : HashRing T U).ring.Perm
      (l2.map (fun x => Node.mk (get_key (toString x)) x)) := by
    have h := foldl_add_ring_perm l2 (HashRing.new : HashRing T U)
    simpa [runAdds, HashRing.new] using h
  have hshape1 : ∀ a ∈ (runAdds l1 : HashRing T U).ring.map
      (fun e => (e.key, toString e.node)),
      ∃ x ∈ l1, a = (get_key (toString x), toString x) := by
    intro a ha
    obtain ⟨e, he, hea⟩ := List.mem_map.mp ha
    have he2 := hperm1.mem_iff.mp he
    obtain ⟨x, hx, hxe⟩ := List.mem_map.mp he2
    exact ⟨x, hx, by rw [← hea, ← hxe]⟩
  have hs1 : ((runAdds l1 : HashRing T U).ring.map
      (fun e => (e.key, toString e.node))).Pairwise
        (fun a b => a.1 ≤ b.1) := by
    refine List.pairwise_map.mpr ?_
    exact foldl_add_sorted l1 HashRing.new sortedRing_new
  have hs2 : ((runAdds l2 : HashRing T U).ring.map
      (fun e => (e.key, toString e.node))).Pairwise
        (fun a b => a.1 ≤ b.1) := by
    refine List.pairwise_map.mpr ?_
    exact foldl_add_sorted l2 HashRing.new sortedRing_new
  have hpp : ((runAdds l1 : HashRing T U).ring.map
      (fun e => (e.key, toString e.node))).Perm
      ((runAdds l2 : HashRing T U).ring.map
      (fun e => (e.key, toString e.node))) := by
    refine List.Perm.trans (hperm1.map _)
      (List.Perm.trans ?_ ((hperm2.map _).symm))
    rw [List.map_map, List.map_map]
    exact hp.map _
  have htie : ∀ a ∈ (runAdds l1 : HashRing T U).ring.map
      (fun e => (e.key, toString e.node)),
      ∀ b ∈ (runAdds l1 : HashRing T U).ring.map
      (fun e => (e.key, toString e.node)), a.1 = b.1 → a.2 = b.2 := by
    intro a ha b hb h1
    obtain ⟨x, hx, hxa⟩ := hshape1 a ha
    obtain ⟨y, hy, hyb⟩ := hshape1 b hb
    subst hxa
    subst hyb
    exact hinj x hx y hy h1
  exact pairs_eq_of_perm_of_sorted _ _ hpp hs1 hs2 htie

/-- Witness for the amended C7 on two collision-free identities inserted in
both orders. -/
theorem C7_witness :
    (["a", "b"] : List String).Perm ["b", "a"] ∧
    (∀ x ∈ (["a", "b"] : List String), ∀ y ∈ (["a", "b"] : List String),
       get_key (toString x) = get_key (toString y) →
         toString x = toString y) ∧
    ((runAdds ["a", "b"] : HashRing String String).get "foo").map toString =
      ((runAdds ["b", "a"] : HashRing String String).get "foo").map
        toString :=
  ⟨List.Perm.swap "b" "a" [],
   by decide,
   C7_amended_order_insensitive ["a", "b"] ["b", "a"]
     (List.Perm.swap "b" "a" []) (by decide) "foo"⟩

end Hashring
